import Mathlib

/-!
Shallow embedding of the frame-sampling / scene-change-detection engine
(`src/utils/frameExtractor` of the Auto-Manual-Creator repository), together
with proofs of the specified properties.

Conventions of the embedding:
* JavaScript numbers are modelled by `ℚ` (exact arithmetic); the one place the
  source can produce `NaN` (reading past the end of a pixel buffer, or the
  `0 / 0` of an empty buffer) is modelled by `Option ℚ`, `none` standing for
  `NaN`.
* Raster buffers (`Uint8ClampedArray`) are `List ℕ` of RGBA bytes.
* The browser video element is abstracted to its `duration : ℚ` together with
  a raster-producing function `frameAt : ℚ → List ℕ` (what `seekAndCapture`
  returns at a given time).
* `Array.prototype.sort` (a stable sort) is modelled by `List.mergeSort`,
  which is the stable sort on lists.
-/

/-- MIN_FRAME_INTERVAL from the source: change points closer than this are merged. -/
def MIN_FRAME_INTERVAL : ℚ := 1

/-- SCAN_INTERVAL from the source: coarse scan cadence in seconds. -/
def SCAN_INTERVAL : ℚ := 1 / 2

/-- MIN_FRAMES from the source: below this count, equal-interval backfill runs. -/
def MIN_FRAMES : ℕ := 3

/-- A detected or synthesized change point: `{ timestamp, changeScore }`. -/
structure ChangePoint where
  timestamp : ℚ
  changeScore : ℚ
deriving DecidableEq

/-- Extraction mode: `'auto' | 'manual'` from `ExtractOptions` in `types.ts`. -/
inductive ExtractMode where
  | auto
  | manual
deriving DecidableEq

/-- ExtractOptions from `types.ts` (the progress callback is irrelevant to the
extracted data and is omitted). -/
structure ExtractOptions where
  mode : ExtractMode
  maxFrames : ℕ
  sensitivity : ℚ

/-- Per-pixel contribution of `calculateFrameDifference`:
`(|dr| + |dg| + |db|) / (3 * 255)`. -/
def blockDiff (a b c x y z : ℕ) : ℚ :=
  ((Nat.dist a x + Nat.dist b y + Nat.dist c z : ℕ) : ℚ) / (3 * 255)

/-- The accumulation loop of `calculateFrameDifference`:
`for (let i = 0; i < pixels1.length; i += 4)` reads `pixels1[i..i+2]` and
`pixels2[i..i+2]`. `none` models the `NaN` produced when a read goes past the
end of either buffer (JS yields `undefined`, and arithmetic on it is `NaN`,
which poisons the total). -/
def diffSum : List ℕ → List ℕ → Option ℚ
  | [], _ => some 0
  | [a, b, c], x :: y :: z :: _ => some (blockDiff a b c x y z)
  | a :: b :: c :: _ :: t1, x :: y :: z :: _ :: t2 =>
      (diffSum t1 t2).map (fun s => blockDiff a b c x y z + s)
  | a :: b :: c :: _ :: t1, [x, y, z] =>
      if t1.isEmpty then some (blockDiff a b c x y z) else none
  | _, _ => none

/-- calculateFrameDifference from the source: normalized mean per-channel
absolute RGB difference. `pixelCount = pixels1.length / 4`; an empty first
buffer gives JS `0 / 0 = NaN`, modelled as `none`. -/
def calculateFrameDifference (pixels1 pixels2 : List ℕ) : Option ℚ :=
  if pixels1.length = 0 then none
  else (diffSum pixels1 pixels2).map (fun s => s / ((pixels1.length : ℚ) / 4))

/-- The claim-side specification sum: `Σ_pixels |dr| + |dg| + |db|` over RGBA
quadruples, the alpha byte ignored. -/
def rgbDiffSum : List ℕ → List ℕ → ℕ
  | a :: b :: c :: _ :: t1, x :: y :: z :: _ :: t2 =>
      Nat.dist a x + Nat.dist b y + Nat.dist c z + rgbDiffSum t1 t2
  | _, _ => 0

/-- JavaScript `Math.round` for the nonnegative values used here: half rounds up. -/
def jsRound (q : ℚ) : ℤ := ⌊q + 1 / 2⌋

/-- The dedup key `Math.round(f.timestamp * 10)` used by the backfill merge. -/
def roundTs (f : ChangePoint) : ℤ := jsRound (f.timestamp * 10)

/-- The temporal-merge loop of `consolidateChanges`, carrying the current
"last kept point". A new point within `MIN_FRAME_INTERVAL` of the last kept
point replaces it when its score is strictly higher (`>` in the source) and is
dropped otherwise; farther points are appended. -/
def mergeAux : ChangePoint → List ChangePoint → List ChangePoint
  | last, [] => [last]
  | last, c :: rest =>
    if c.timestamp - last.timestamp < MIN_FRAME_INTERVAL then
      if last.changeScore < c.changeScore then mergeAux c rest
      else mergeAux last rest
    else last :: mergeAux c rest

/-- Step A of `consolidateChanges`: seed with the first point, then merge. -/
def mergeChanges : List ChangePoint → List ChangePoint
  | [] => []
  | c :: rest => mergeAux c rest

/-- The stable ascending sort `(a, b) => a.timestamp - b.timestamp`. -/
def sortByTimestamp (l : List ChangePoint) : List ChangePoint :=
  l.mergeSort (fun a b => decide (a.timestamp ≤ b.timestamp))

/-- The stable descending sort `(a, b) => b.changeScore - a.changeScore`. -/
def sortByScoreDesc (l : List ChangePoint) : List ChangePoint :=
  l.mergeSort (fun a b => decide (b.changeScore ≤ a.changeScore))

/-- consolidateChanges from the source: temporal merge, then cap enforcement
(sort descending by score, take `maxFrames`, re-sort ascending by timestamp). -/
def consolidateChanges (changes : List ChangePoint) (maxFrames : ℕ) : List ChangePoint :=
  let merged := mergeChanges changes
  if merged.length ≤ maxFrames then merged
  else sortByTimestamp ((sortByScoreDesc merged).take maxFrames)

/-- `totalScans = Math.floor(duration / SCAN_INTERVAL)` (nonnegative durations). -/
def totalScans (duration : ℚ) : ℕ := (⌊duration / SCAN_INTERVAL⌋).toNat

/-- The i-th scanned instant: `Math.min(i * SCAN_INTERVAL, duration - 0.01)`. -/
def scanTime (duration : ℚ) (i : ℕ) : ℚ :=
  min ((i : ℚ) * SCAN_INTERVAL) (duration - 1 / 100)

/-- All scanned instants, `i = 0 .. totalScans`. -/
def scanTimes (duration : ℚ) : List ℚ :=
  (List.range (totalScans duration + 1)).map (scanTime duration)

/-- The scan loop of `detectSceneChanges`: the `Option` state is the previous
scanned raster (`previousPixels`); a point is emitted when the Differencer
score against it is defined and `≥ sensitivity`. The first scanned frame only
seeds the state. -/
def scanLoop (frameAt : ℚ → List ℕ) (sensitivity : ℚ) :
    Option (List ℕ) → List ℚ → List ChangePoint
  | _, [] => []
  | none, t :: ts => scanLoop frameAt sensitivity (some (frameAt t)) ts
  | some prev, t :: ts =>
    match calculateFrameDifference prev (frameAt t) with
    | some d =>
        if sensitivity ≤ d then
          ⟨t, d⟩ :: scanLoop frameAt sensitivity (some (frameAt t)) ts
        else scanLoop frameAt sensitivity (some (frameAt t)) ts
    | none => scanLoop frameAt sensitivity (some (frameAt t)) ts

/-- detectSceneChanges from the source, over the abstracted video. -/
def detectSceneChanges (frameAt : ℚ → List ℕ) (duration sensitivity : ℚ) :
    List ChangePoint :=
  scanLoop frameAt sensitivity none (scanTimes duration)

/-- generateEqualIntervals from the source: `count` points at
`i * (duration / (count + 1))`, `i = 1 .. count`, each with `changeScore = 0`. -/
def generateEqualIntervals (duration : ℚ) (count : ℕ) : List ChangePoint :=
  (List.range count).map
    (fun (i : ℕ) => ⟨((i : ℚ) + 1) * (duration / ((count : ℚ) + 1)), 0⟩)

/-- The timestamp-selection core of the new engine's `extractFrames`: mode
dispatch, auto-mode scan + consolidation + conditional equal-interval backfill
(dedup by `Math.round(ts * 10)`, chronological re-sort, `slice(0, maxFrames)`),
manual-mode equal intervals. The capture phase re-renders exactly these points
in order, so the extracted frames carry exactly these timestamps and scores. -/
def extractFrames (frameAt : ℚ → List ℕ) (duration : ℚ) (opts : ExtractOptions) :
    List ChangePoint :=
  match opts.mode with
  | ExtractMode.auto =>
    let raw := detectSceneChanges frameAt duration opts.sensitivity
    let cons := consolidateChanges raw opts.maxFrames
    if cons.length < MIN_FRAMES then
      let equalFrames := generateEqualIntervals duration opts.maxFrames
      let existing := cons.map roundTs
      let added := equalFrames.filter (fun e => decide (roundTs e ∉ existing))
      (sortByTimestamp (cons ++ added)).take opts.maxFrames
    else cons
  | ExtractMode.manual => generateEqualIntervals duration opts.maxFrames

/-- The legacy fixed-interval `extractFrames` variant (the older utils module):
its frame timestamps are `i * (duration / (count + 1))`, `i = 1 .. count`. -/
def extractFramesLegacy (duration : ℚ) (count : ℕ) : List ℚ :=
  (List.range count).map (fun (i : ℕ) => ((i : ℚ) + 1) * (duration / ((count : ℚ) + 1)))

/-! ### Basic facts about the equal-interval generator -/

lemma generateEqualIntervals_map_ts (D : ℚ) (N : ℕ) :
    (generateEqualIntervals D N).map (fun f => f.timestamp)
      = (List.range N).map (fun (i : ℕ) => ((i : ℚ) + 1) * (D / ((N : ℚ) + 1))) := by
  simp [generateEqualIntervals, List.map_map, Function.comp_def]

lemma generateEqualIntervals_length (D : ℚ) (N : ℕ) :
    (generateEqualIntervals D N).length = N := by
  simp [generateEqualIntervals]

lemma generateEqualIntervals_score {D : ℚ} {N : ℕ} {f : ChangePoint}
    (hf : f ∈ generateEqualIntervals D N) : f.changeScore = 0 := by
  simp only [generateEqualIntervals, List.mem_map, List.mem_range] at hf
  obtain ⟨i, -, rfl⟩ := hf
  rfl

lemma generateEqualIntervals_sorted {D : ℚ} (hD : 0 < D) (N : ℕ) :
    ((generateEqualIntervals D N).map (fun f => f.timestamp)).Sorted (· < ·) := by
  rw [generateEqualIntervals_map_ts]
  refine List.Pairwise.map _ ?_ (List.pairwise_lt_range N)
  intro i j hij
  have hc : 0 < D / ((N : ℚ) + 1) := by positivity
  have : ((i : ℚ) + 1) < ((j : ℚ) + 1) := by
    have : (i : ℚ) < (j : ℚ) := by exact_mod_cast hij
    linarith
  exact mul_lt_mul_of_pos_right this hc

lemma generateEqualIntervals_mem_bounds {D : ℚ} (hD : 0 < D) {N : ℕ}
    {f : ChangePoint} (hf : f ∈ generateEqualIntervals D N) :
    0 < f.timestamp ∧ f.timestamp < D := by
  simp only [generateEqualIntervals, List.mem_map, List.mem_range] at hf
  obtain ⟨i, hi, rfl⟩ := hf
  have hc : 0 < D / ((N : ℚ) + 1) := by positivity
  constructor
  · have : (0 : ℚ) < (i : ℚ) + 1 := by positivity
    exact mul_pos this hc
  · have hiN : ((i : ℚ) + 1) < ((N : ℚ) + 1) := by
      have : (i : ℚ) < (N : ℚ) := by exact_mod_cast hi
      linarith
    have hD' : ((N : ℚ) + 1) * (D / ((N : ℚ) + 1)) = D := by
      field_simp
    calc ((i : ℚ) + 1) * (D / ((N : ℚ) + 1))
        < ((N : ℚ) + 1) * (D / ((N : ℚ) + 1)) := mul_lt_mul_of_pos_right hiN hc
      _ = D := hD'

/-! ### Claims C10, C4, C7 -/

/-- C10: the legacy fixed-interval extractor and the engine's manual mode select
the same timestamps — both equal `generateEqualIntervals`, i.e. the points
`i * (D / (N + 1))` for `i = 1 .. N`. -/
theorem legacy_manual_same_timestamps :
    ∀ (frameAt : ℚ → List ℕ) (D : ℚ) (N : ℕ) (s : ℚ),
      extractFramesLegacy D N
          = (extractFrames frameAt D ⟨ExtractMode.manual, N, s⟩).map
              (fun f => f.timestamp) ∧
      extractFramesLegacy D N
          = (generateEqualIntervals D N).map (fun f => f.timestamp) := by
  intro frameAt D N s
  constructor
  · rw [show extractFrames frameAt D ⟨ExtractMode.manual, N, s⟩
        = generateEqualIntervals D N from rfl, generateEqualIntervals_map_ts]
    rfl
  · rw [generateEqualIntervals_map_ts]
    rfl

/-- C4: in manual mode with duration `D > 0` and `maxFrames = N ≥ 1`, the output
timestamps are exactly `i * D / (N + 1)` for `i = 1 .. N`, in strictly ascending
order, and every synthesized frame carries `changeScore = 0`. -/
theorem manual_mode_spacing (frameAt : ℚ → List ℕ) (D : ℚ) (N : ℕ) (s : ℚ)
    (hD : 0 < D) (hN : 1 ≤ N) :
    (extractFrames frameAt D ⟨ExtractMode.manual, N, s⟩).map (fun f => f.timestamp)
        = (List.range N).map (fun (i : ℕ) => (((i : ℚ) + 1) * D) / ((N : ℚ) + 1)) ∧
    ((extractFrames frameAt D ⟨ExtractMode.manual, N, s⟩).map
        (fun f => f.timestamp)).Sorted (· < ·) ∧
    ∀ f ∈ extractFrames frameAt D ⟨ExtractMode.manual, N, s⟩, f.changeScore = 0 := by
  have hmode : extractFrames frameAt D ⟨ExtractMode.manual, N, s⟩
      = generateEqualIntervals D N := rfl
  refine ⟨?_, ?_, ?_⟩
  · rw [hmode, generateEqualIntervals_map_ts]
    refine List.map_congr_left ?_
    intro i _
    rw [mul_div_assoc]
  · rw [hmode]
    exact generateEqualIntervals_sorted hD N
  · rw [hmode]
    intro f hf
    exact generateEqualIntervals_score hf

/-- C4 witness: duration 12, three frames, timestamps `[3, 6, 9]`. -/
theorem manual_mode_spacing_witness :
    (extractFrames (fun _ => []) 12 ⟨ExtractMode.manual, 3, 1⟩).map
        (fun f => f.timestamp) = [3, 6, 9] ∧
    (∀ f ∈ extractFrames (fun _ => []) 12 ⟨ExtractMode.manual, 3, 1⟩,
        f.changeScore = 0) := by
  have h := manual_mode_spacing (fun _ => []) 12 3 1 (by norm_num) (by norm_num)
  refine ⟨?_, h.2.2⟩
  rw [h.1]
  norm_num [List.range_succ]

/-- C7: in the temporal merge, a new point strictly within `MIN_FRAME_INTERVAL`
of the current last kept point replaces it exactly when its `changeScore` is
strictly higher and is dropped otherwise; in particular two change points less
than the minimum interval apart collapse to the single higher-scoring one. -/
theorem merge_replace_or_drop :
    (∀ (last c : ChangePoint) (rest : List ChangePoint),
      c.timestamp - last.timestamp < MIN_FRAME_INTERVAL →
        mergeAux last (c :: rest)
          = if last.changeScore < c.changeScore then mergeAux c rest
            else mergeAux last rest) ∧
    (∀ (p q : ChangePoint) (N : ℕ),
      q.timestamp - p.timestamp < MIN_FRAME_INTERVAL → 1 ≤ N →
        consolidateChanges [p, q] N
          = [if p.changeScore < q.changeScore then q else p]) := by
  constructor
  · intro last c rest h
    simp [mergeAux, h]
  · intro p q N h hN
    have hm : mergeChanges [p, q]
        = [if p.changeScore < q.changeScore then q else p] := by
      simp only [mergeChanges, mergeAux, h, if_true]
      split <;> rfl
    rw [consolidateChanges, hm]
    simp [hN]

/-- C7 witness: two points 0.5 s apart collapse to the higher-scoring one. -/
theorem merge_replace_or_drop_witness :
    mergeAux ⟨1, 5⟩ ((⟨3 / 2, 7⟩ : ChangePoint) :: [])
        = (if (5 : ℚ) < 7 then mergeAux ⟨3 / 2, 7⟩ [] else mergeAux ⟨1, 5⟩ []) ∧
    consolidateChanges [⟨1, 5⟩, ⟨3 / 2, 7⟩] 4 = [⟨3 / 2, 7⟩] := by
  constructor
  · exact merge_replace_or_drop.1 ⟨1, 5⟩ ⟨3 / 2, 7⟩ [] (by norm_num [MIN_FRAME_INTERVAL])
  · have h := merge_replace_or_drop.2 ⟨1, 5⟩ ⟨3 / 2, 7⟩ 4
      (by norm_num [MIN_FRAME_INTERVAL]) (by norm_num)
    simpa using h

/-! ### Claim C5: the Differencer formula and its bounds -/

lemma cons4_of_len {α : Type _} (l : List α) (h : 4 ≤ l.length) :
    ∃ a b c d t, l = a :: b :: c :: d :: t := by
  cases l with
  | nil => simp at h
  | cons a l1 =>
    cases l1 with
    | nil => simp at h
    | cons b l2 =>
      cases l2 with
      | nil => simp at h
      | cons c l3 =>
        cases l3 with
        | nil => simp at h
        | cons d t => exact ⟨a, b, c, d, t, rfl⟩

lemma diffSum_cons4 (a b c d x y z w : ℕ) (t1 t2 : List ℕ) :
    diffSum (a :: b :: c :: d :: t1) (x :: y :: z :: w :: t2)
      = (diffSum t1 t2).map (fun s => blockDiff a b c x y z + s) := rfl

lemma rgbDiffSum_cons4 (a b c d x y z w : ℕ) (t1 t2 : List ℕ) :
    rgbDiffSum (a :: b :: c :: d :: t1) (x :: y :: z :: w :: t2)
      = Nat.dist a x + Nat.dist b y + Nat.dist c z + rgbDiffSum t1 t2 := rfl

lemma diffSum_eq_rgb :
    ∀ (P : ℕ) (p1 p2 : List ℕ), p1.length = 4 * P → 4 * P ≤ p2.length →
      diffSum p1 p2 = some ((rgbDiffSum p1 p2 : ℚ) / (3 * 255)) := by
  intro P
  induction P with
  | zero =>
    intro p1 p2 h1 h2
    have e1 : p1 = [] := List.length_eq_zero.mp (by omega)
    subst e1
    rw [show diffSum [] p2 = some 0 from rfl, show rgbDiffSum [] p2 = 0 from rfl]
    norm_num
  | succ P ih =>
    intro p1 p2 h1 h2
    obtain ⟨a, b, c, d, t1, rfl⟩ := cons4_of_len p1 (by omega)
    obtain ⟨x, y, z, w, t2, rfl⟩ := cons4_of_len p2 (by omega)
    simp only [List.length_cons] at h1 h2
    have ht1 : t1.length = 4 * P := by omega
    have ht2 : 4 * P ≤ t2.length := by omega
    rw [diffSum_cons4, ih t1 t2 ht1 ht2, rgbDiffSum_cons4]
    simp only [Option.map_some']
    congr 1
    unfold blockDiff
    push_cast
    ring

lemma calculateFrameDifference_eq {P : ℕ} {p1 p2 : List ℕ} (hP : 1 ≤ P)
    (h1 : p1.length = 4 * P) (h2 : 4 * P ≤ p2.length) :
    calculateFrameDifference p1 p2
      = some ((rgbDiffSum p1 p2 : ℚ) / (3 * 255 * (P : ℚ))) := by
  have hne : p1.length ≠ 0 := by omega
  rw [calculateFrameDifference, if_neg hne, diffSum_eq_rgb P p1 p2 h1 h2]
  simp only [Option.map_some']
  congr 1
  have hPQ : ((P : ℚ)) ≠ 0 := by positivity
  rw [h1]
  push_cast
  field_simp

lemma rgbDiffSum_le :
    ∀ (P : ℕ) (p1 p2 : List ℕ), p1.length = 4 * P → p2.length = 4 * P →
      (∀ v ∈ p1, v ≤ 255) → (∀ v ∈ p2, v ≤ 255) →
      rgbDiffSum p1 p2 ≤ 3 * 255 * P := by
  intro P
  induction P with
  | zero =>
    intro p1 p2 h1 h2 hb1 hb2
    have e1 : p1 = [] := List.length_eq_zero.mp (by omega)
    have e2 : p2 = [] := List.length_eq_zero.mp (by omega)
    subst e1; subst e2
    simp [rgbDiffSum]
  | succ P ih =>
    intro p1 p2 h1 h2 hb1 hb2
    obtain ⟨a, b, c, d, t1, rfl⟩ := cons4_of_len p1 (by omega)
    obtain ⟨x, y, z, w, t2, rfl⟩ := cons4_of_len p2 (by omega)
    simp only [List.length_cons] at h1 h2
    have ht1 : t1.length = 4 * P := by omega
    have ht2 : t2.length = 4 * P := by omega
    have hrec := ih t1 t2 ht1 ht2 (fun v hv => hb1 v (by simp [hv]))
      (fun v hv => hb2 v (by simp [hv]))
    have hda : Nat.dist a x ≤ 255 := by
      have := hb1 a (by simp); have := hb2 x (by simp)
      simp only [Nat.dist]; omega
    have hdb : Nat.dist b y ≤ 255 := by
      have := hb1 b (by simp); have := hb2 y (by simp)
      simp only [Nat.dist]; omega
    have hdc : Nat.dist c z ≤ 255 := by
      have := hb1 c (by simp); have := hb2 z (by simp)
      simp only [Nat.dist]; omega
    rw [rgbDiffSum_cons4]
    omega

lemma rgbDiffSum_self :
    ∀ (P : ℕ) (l : List ℕ), l.length = 4 * P → rgbDiffSum l l = 0 := by
  intro P
  induction P with
  | zero =>
    intro l h
    have e : l = [] := List.length_eq_zero.mp (by omega)
    subst e; simp [rgbDiffSum]
  | succ P ih =>
    intro l h
    obtain ⟨a, b, c, d, t, rfl⟩ := cons4_of_len l (by omega)
    simp only [List.length_cons] at h
    rw [rgbDiffSum_cons4, Nat.dist_self, Nat.dist_self, Nat.dist_self,
      ih t (by omega)]

lemma rgbDiffSum_black_white :
    ∀ P : ℕ, rgbDiffSum (List.replicate (4 * P) 0) (List.replicate (4 * P) 255)
      = 3 * 255 * P := by
  intro P
  induction P with
  | zero => simp [rgbDiffSum]
  | succ P ih =>
    have h4 : 4 * (P + 1) = 4 + 4 * P := by ring
    rw [h4, List.replicate_add, List.replicate_add]
    show rgbDiffSum (0 :: 0 :: 0 :: 0 :: List.replicate (4 * P) 0)
        (255 :: 255 :: 255 :: 255 :: List.replicate (4 * P) 255) = _
    rw [rgbDiffSum_cons4, ih]
    simp [Nat.dist]
    ring

/-- C5: for equally sized RGBA buffers of `P ≥ 1` pixels the Differencer
returns exactly `(Σ |dr| + |dg| + |db|) / (3 * 255 * P)` (alpha ignored);
consequently the score lies in `[0, 1]`, an identical pair scores `0`, and an
all-black vs. all-white pair scores `1`. -/
theorem differencer_formula_bounds :
    (∀ (P : ℕ) (p1 p2 : List ℕ), 1 ≤ P → p1.length = 4 * P → p2.length = 4 * P →
      calculateFrameDifference p1 p2
        = some ((rgbDiffSum p1 p2 : ℚ) / (3 * 255 * (P : ℚ)))) ∧
    (∀ (P : ℕ) (p1 p2 : List ℕ) (q : ℚ), 1 ≤ P →
      p1.length = 4 * P → p2.length = 4 * P →
      (∀ v ∈ p1, v ≤ 255) → (∀ v ∈ p2, v ≤ 255) →
      calculateFrameDifference p1 p2 = some q → 0 ≤ q ∧ q ≤ 1) ∧
    (∀ (P : ℕ) (p1 : List ℕ), 1 ≤ P → p1.length = 4 * P →
      calculateFrameDifference p1 p1 = some 0) ∧
    (∀ P : ℕ, 1 ≤ P →
      calculateFrameDifference (List.replicate (4 * P) 0)
        (List.replicate (4 * P) 255) = some 1) := by
  have hmain : ∀ (P : ℕ) (p1 p2 : List ℕ), 1 ≤ P → p1.length = 4 * P →
      p2.length = 4 * P →
      calculateFrameDifference p1 p2
        = some ((rgbDiffSum p1 p2 : ℚ) / (3 * 255 * (P : ℚ))) :=
    fun P p1 p2 hP h1 h2 =>
      calculateFrameDifference_eq hP h1 (by omega)
  refine ⟨hmain, ?_, ?_, ?_⟩
  · intro P p1 p2 q hP h1 h2 hb1 hb2 hq
    rw [hmain P p1 p2 hP h1 h2] at hq
    have hq' : q = (rgbDiffSum p1 p2 : ℚ) / (3 * 255 * (P : ℚ)) :=
      (Option.some_injective _ hq).symm
    subst hq'
    have hPpos : (0 : ℚ) < (P : ℚ) := by exact_mod_cast hP
    have hle := rgbDiffSum_le P p1 p2 h1 h2 hb1 hb2
    constructor
    · positivity
    · rw [div_le_one (by positivity)]
      calc (rgbDiffSum p1 p2 : ℚ) ≤ ((3 * 255 * P : ℕ) : ℚ) := by exact_mod_cast hle
        _ = 3 * 255 * (P : ℚ) := by push_cast; ring
  · intro P p1 hP h1
    rw [hmain P p1 p1 hP h1 h1, rgbDiffSum_self P p1 h1]
    norm_num
  · intro P hP
    have h1 : (List.replicate (4 * P) (0 : ℕ)).length = 4 * P := by simp
    have h2 : (List.replicate (4 * P) (255 : ℕ)).length = 4 * P := by simp
    rw [hmain P _ _ hP h1 h2, rgbDiffSum_black_white P]
    have hPpos : (0 : ℚ) < (P : ℚ) := by exact_mod_cast hP
    have he : ((3 * 255 * P : ℕ) : ℚ) / (3 * 255 * (P : ℚ)) = 1 := by
      rw [show ((3 * 255 * P : ℕ) : ℚ) = 3 * 255 * (P : ℚ) by push_cast; ring]
      exact div_self (by positivity)
    rw [he]

/-- C5 witness: the formula, the bounds, the zero case and the one case, all at
one-pixel buffers. -/
theorem differencer_formula_bounds_witness :
    calculateFrameDifference [0, 10, 0, 7] [255, 10, 0, 9]
        = some ((rgbDiffSum [0, 10, 0, 7] [255, 10, 0, 9] : ℚ) / (3 * 255 * 1)) ∧
    ((0 : ℚ) ≤ 1 / 3 ∧ (1 / 3 : ℚ) ≤ 1) ∧
    calculateFrameDifference [0, 10, 0, 7] [0, 10, 0, 7] = some 0 ∧
    calculateFrameDifference (List.replicate (4 * 1) 0)
        (List.replicate (4 * 1) 255) = some 1 := by
  refine ⟨?_, ?_, ?_, ?_⟩
  · have h := differencer_formula_bounds.1 1 [0, 10, 0, 7] [255, 10, 0, 9]
      (le_refl 1) (by decide) (by decide)
    simpa using h
  · have h := differencer_formula_bounds.2.1 1 [0, 10, 0, 7] [255, 10, 0, 9]
      (1 / 3) (le_refl 1) (by decide) (by decide) (by decide) (by decide) ?_
    · exact h
    · have h1 := differencer_formula_bounds.1 1 [0, 10, 0, 7] [255, 10, 0, 9]
        (le_refl 1) (by decide) (by decide)
      rw [h1]
      norm_num [rgbDiffSum, Nat.dist]
  · have h := differencer_formula_bounds.2.2.1 1 [0, 10, 0, 7] (le_refl 1) (by decide)
    exact h
  · exact differencer_formula_bounds.2.2.2 1 (le_refl 1)

/-! ### Claim C6: no size check exists in the Differencer -/

/-- C6 counterexample: `calculateFrameDifference` performs no size validation.
On the mismatched pair below (4 bytes vs. 5 bytes) it does not fail at all —
it returns the normal score `1` computed over the first buffer's single pixel,
so a mismatched call is not rejected with any error. -/
theorem differencer_mismatch_counterexample :
    ([0, 0, 0, 0] : List ℕ).length ≠ ([255, 255, 255, 255, 0] : List ℕ).length ∧
    calculateFrameDifference [0, 0, 0, 0] [255, 255, 255, 255, 0] = some 1 := by
  constructor
  · decide
  · rw [calculateFrameDifference]
    norm_num
    rw [show diffSum [0, 0, 0, 0] [255, 255, 255, 255, 0]
        = (diffSum [] [0]).map (fun s => blockDiff 0 0 0 255 255 255 + s) from rfl,
      show diffSum [] [0] = some 0 from rfl]
    norm_num [blockDiff, Nat.dist]

/-- C6 amended: the Differencer performs no size check and raises no error on
mismatched buffers. The iteration count comes from the first buffer alone:
whenever the second buffer is at least as long as the first (first of size
`4 * P`, `P ≥ 1` pixels), the call succeeds with the normal score over the
first buffer's pixels, the extra bytes of the second buffer ignored. -/
theorem differencer_no_size_check (P : ℕ) (p1 p2 : List ℕ) (hP : 1 ≤ P)
    (h1 : p1.length = 4 * P) (h2 : 4 * P ≤ p2.length) :
    calculateFrameDifference p1 p2
      = some ((rgbDiffSum p1 p2 : ℚ) / (3 * 255 * (P : ℚ))) :=
  calculateFrameDifference_eq hP h1 h2

/-- C6 amended witness: a 4-byte first buffer against a 9-byte second buffer
still yields a normal score. -/
theorem differencer_no_size_check_witness :
    calculateFrameDifference [0, 0, 0, 0] [255, 255, 255, 255, 1, 2, 3, 4, 5]
      = some ((rgbDiffSum [0, 0, 0, 0] [255, 255, 255, 255, 1, 2, 3, 4, 5] : ℚ)
          / (3 * 255 * 1)) := by
  have h := differencer_no_size_check 1 [0, 0, 0, 0]
    [255, 255, 255, 255, 1, 2, 3, 4, 5] (le_refl 1) (by decide) (by decide)
  simpa using h

/-! ### Claim C8: the scan sampler -/

lemma scanLoop_char (frameAt : ℚ → List ℕ) (s : ℚ) :
    ∀ (ts : List ℚ) (t0 : ℚ),
      scanLoop frameAt s (some (frameAt t0)) ts
        = ((t0 :: ts).zip ts).filterMap
            (fun pr =>
              match calculateFrameDifference (frameAt pr.1) (frameAt pr.2) with
              | some q => if s ≤ q then some ⟨pr.2, q⟩ else none
              | none => none) := by
  intro ts
  induction ts with
  | nil => intro t0; rfl
  | cons t ts ih =>
    intro t0
    rw [show ((t0 :: t :: ts).zip (t :: ts)) = (t0, t) :: ((t :: ts).zip ts) from rfl,
      List.filterMap_cons]
    rw [show scanLoop frameAt s (some (frameAt t0)) (t :: ts)
        = (match calculateFrameDifference (frameAt t0) (frameAt t) with
           | some q =>
              if s ≤ q then
                (⟨t, q⟩ : ChangePoint) :: scanLoop frameAt s (some (frameAt t)) ts
              else scanLoop frameAt s (some (frameAt t)) ts
           | none => scanLoop frameAt s (some (frameAt t)) ts) from rfl]
    cases hq : calculateFrameDifference (frameAt t0) (frameAt t) with
    | none => simpa using ih t
    | some q =>
      by_cases hs : s ≤ q
      · simp only [hs, if_true]
        rw [ih t]
      · simp only [hs, if_false]
        rw [ih t]

lemma filterMap_map_sublist {α β γ : Type _} (f : α → Option β) (g : β → γ)
    (h : α → γ) (H : ∀ a b, f a = some b → g b = h a) :
    ∀ l : List α, ((l.filterMap f).map g).Sublist (l.map h) := by
  intro l
  induction l with
  | nil => simp
  | cons a t ih =>
    cases hfa : f a with
    | none =>
      rw [List.filterMap_cons, hfa, List.map_cons]
      exact ih.cons _
    | some b =>
      rw [List.filterMap_cons, hfa, List.map_cons, List.map_cons, H a b hfa]
      exact ih.cons₂ _

lemma scanTime_mono {d : ℚ} {i j : ℕ} (hij : i ≤ j) : scanTime d i ≤ scanTime d j := by
  unfold scanTime
  refine min_le_min ?_ le_rfl
  have : (i : ℚ) ≤ (j : ℚ) := by exact_mod_cast hij
  have hS : (0 : ℚ) ≤ SCAN_INTERVAL := by norm_num [SCAN_INTERVAL]
  exact mul_le_mul_of_nonneg_right this hS

lemma scanTimes_sorted (d : ℚ) : (scanTimes d).Sorted (· ≤ ·) := by
  unfold scanTimes
  refine List.Pairwise.map _ ?_ (List.pairwise_lt_range _)
  intro i j hij
  exact scanTime_mono hij.le

lemma map_snd_zip_tail (l : List ℚ) : (l.zip l.tail).map Prod.snd = l.tail := by
  apply List.map_snd_zip
  cases l <;> simp

lemma detect_char (frameAt : ℚ → List ℕ) (d s : ℚ) :
    detectSceneChanges frameAt d s
      = ((scanTimes d).zip (scanTimes d).tail).filterMap
          (fun pr =>
            match calculateFrameDifference (frameAt pr.1) (frameAt pr.2) with
            | some q => if s ≤ q then some ⟨pr.2, q⟩ else none
            | none => none) := by
  unfold detectSceneChanges
  have hne : ∃ t0 rest, scanTimes d = t0 :: rest := by
    unfold scanTimes
    rw [List.range_succ_eq_map, List.map_cons]
    exact ⟨_, _, rfl⟩
  obtain ⟨t0, rest, heq⟩ := hne
  rw [heq]
  rw [show scanLoop frameAt s none (t0 :: rest)
      = scanLoop frameAt s (some (frameAt t0)) rest from rfl]
  exact scanLoop_char frameAt s rest t0

lemma detect_ts_sublist (frameAt : ℚ → List ℕ) (d s : ℚ) :
    ((detectSceneChanges frameAt d s).map (fun f => f.timestamp)).Sublist
      ((scanTimes d).tail) := by
  rw [detect_char frameAt d s]
  have := filterMap_map_sublist
    (fun pr : ℚ × ℚ =>
      match calculateFrameDifference (frameAt pr.1) (frameAt pr.2) with
      | some q => if s ≤ q then some ⟨pr.2, q⟩ else none
      | none => none)
    (fun f : ChangePoint => f.timestamp) Prod.snd ?_
    ((scanTimes d).zip (scanTimes d).tail)
  · rw [map_snd_zip_tail] at this
    exact this
  · intro pr c hc
    simp only at hc
    split at hc
    · split_ifs at hc
      injection hc with h
      rw [← h]
    · simp at hc

/-- C8: a ChangePoint is emitted at a scanned timestamp exactly when the
Differencer score against the immediately preceding scanned raster is defined
and `≥ sensitivity` (the very first scanned instant only seeds the comparison
state and never emits), and the emitted points are in non-decreasing timestamp
order, every emitted timestamp being one of the scanned instants other than
the first. -/
theorem scan_sampler_emission (frameAt : ℚ → List ℕ) (d s : ℚ) :
    detectSceneChanges frameAt d s
      = ((scanTimes d).zip (scanTimes d).tail).filterMap
          (fun pr =>
            match calculateFrameDifference (frameAt pr.1) (frameAt pr.2) with
            | some q => if s ≤ q then some ⟨pr.2, q⟩ else none
            | none => none) ∧
    ((detectSceneChanges frameAt d s).map (fun f => f.timestamp)).Sorted (· ≤ ·) ∧
    ∀ f ∈ detectSceneChanges frameAt d s, f.timestamp ∈ (scanTimes d).tail := by
  have hchar := detect_char frameAt d s
  have hsub := detect_ts_sublist frameAt d s
  refine ⟨hchar, ?_, ?_⟩
  · exact ((scanTimes_sorted d).tail).sublist hsub
  · intro f hf
    have : f.timestamp ∈ (detectSceneChanges frameAt d s).map (fun f => f.timestamp) :=
      List.mem_map_of_mem _ hf
    exact hsub.subset this

/-! ### The consolidator: merge-step and cap-step structure -/

/-- The minimum-gap relation guaranteed between consecutive kept points. -/
def gapOK (a b : ChangePoint) : Prop :=
  a.timestamp + MIN_FRAME_INTERVAL ≤ b.timestamp

lemma gapOK_trans : Transitive gapOK := by
  intro a b c hab hbc
  unfold gapOK MIN_FRAME_INTERVAL at *
  linarith

instance : IsTrans ChangePoint gapOK := ⟨fun a b c hab hbc => gapOK_trans hab hbc⟩

lemma mergeAux_sublist :
    ∀ (rest : List ChangePoint) (last : ChangePoint),
      (mergeAux last rest).Sublist (last :: rest) := by
  intro rest
  induction rest with
  | nil => intro last; simp [mergeAux]
  | cons c rest ih =>
    intro last
    rw [mergeAux]
    split_ifs with h1 h2
    · exact (ih c).cons last
    · refine (ih last).trans ?_
      exact List.Sublist.cons₂ last ((List.Sublist.refl rest).cons c)
    · exact (ih c).cons₂ last

lemma mergeAux_chain :
    ∀ (rest : List ChangePoint) (last : ChangePoint),
      (∀ x ∈ rest, last.timestamp ≤ x.timestamp) →
      rest.Pairwise (fun a b => a.timestamp ≤ b.timestamp) →
      ∃ hd tl, mergeAux last rest = hd :: tl ∧ last.timestamp ≤ hd.timestamp ∧
        (hd :: tl).Chain' gapOK := by
  intro rest
  induction rest with
  | nil =>
    intro last _ _
    exact ⟨last, [], rfl, le_rfl, List.chain'_singleton last⟩
  | cons c rest ih =>
    intro last hmem hpw
    have hc : last.timestamp ≤ c.timestamp := hmem c (List.mem_cons_self c rest)
    have hrest_c : ∀ x ∈ rest, c.timestamp ≤ x.timestamp :=
      (List.pairwise_cons.mp hpw).1
    have hpw' : rest.Pairwise (fun a b => a.timestamp ≤ b.timestamp) :=
      (List.pairwise_cons.mp hpw).2
    rw [mergeAux]
    split_ifs with h1 h2
    · obtain ⟨hd, tl, heq, hle, hch⟩ := ih c hrest_c hpw'
      exact ⟨hd, tl, heq, le_trans hc hle, hch⟩
    · obtain ⟨hd, tl, heq, hle, hch⟩ :=
        ih last (fun x hx => le_trans hc (hrest_c x hx)) hpw'
      exact ⟨hd, tl, heq, hle, hch⟩
    · obtain ⟨hd, tl, heq, hle, hch⟩ := ih c hrest_c hpw'
      refine ⟨last, hd :: tl, by rw [heq], le_rfl, ?_⟩
      rw [List.chain'_cons]
      refine ⟨?_, hch⟩
      unfold gapOK
      have hge : MIN_FRAME_INTERVAL ≤ c.timestamp - last.timestamp := not_lt.mp h1
      linarith

lemma mergeChanges_sublist (l : List ChangePoint) :
    (mergeChanges l).Sublist l := by
  cases l with
  | nil => simp [mergeChanges]
  | cons c rest => exact mergeAux_sublist rest c

lemma mergeChanges_chain {l : List ChangePoint}
    (h : l.Pairwise (fun a b => a.timestamp ≤ b.timestamp)) :
    (mergeChanges l).Chain' gapOK := by
  cases l with
  | nil => simp [mergeChanges]
  | cons c rest =>
    obtain ⟨hd, tl, heq, -, hch⟩ :=
      mergeAux_chain rest c (List.pairwise_cons.mp h).1 (List.pairwise_cons.mp h).2
    rw [mergeChanges, heq]
    exact hch

lemma mergeChanges_pairwise_gap {l : List ChangePoint}
    (h : l.Pairwise (fun a b => a.timestamp ≤ b.timestamp)) :
    (mergeChanges l).Pairwise gapOK :=
  List.chain'_iff_pairwise.mp (mergeChanges_chain h)

lemma pairwise_gap_ts_lt {l : List ChangePoint} (h : l.Pairwise gapOK) :
    l.Pairwise (fun a b => a.timestamp < b.timestamp) := by
  refine h.imp ?_
  intro a b hab
  unfold gapOK MIN_FRAME_INTERVAL at hab
  linarith

lemma pairwise_ts_lt_nodup {l : List ChangePoint}
    (h : l.Pairwise (fun a b => a.timestamp < b.timestamp)) : l.Nodup := by
  refine h.imp ?_
  intro a b hab
  intro hEq
  rw [hEq] at hab
  exact lt_irrefl _ hab

/-! Facts about the two stable sorts. -/

lemma sortByTimestamp_perm (l : List ChangePoint) : (sortByTimestamp l).Perm l :=
  List.mergeSort_perm l _

lemma sortByTimestamp_sorted (l : List ChangePoint) :
    (sortByTimestamp l).Pairwise (fun a b => a.timestamp ≤ b.timestamp) := by
  have h := @List.sorted_mergeSort ChangePoint
    (fun a b : ChangePoint => decide (a.timestamp ≤ b.timestamp))
    (fun a b c hab hbc => by
      simp only [decide_eq_true_eq] at *
      exact le_trans hab hbc)
    (fun a b => by
      simp only [Bool.or_eq_true, decide_eq_true_eq]
      exact le_total a.timestamp b.timestamp)
    l
  refine h.imp ?_
  intro a b hab
  simpa using hab

lemma sortByScoreDesc_perm (l : List ChangePoint) : (sortByScoreDesc l).Perm l :=
  List.mergeSort_perm l _

lemma sortByScoreDesc_sorted (l : List ChangePoint) :
    (sortByScoreDesc l).Pairwise (fun a b => b.changeScore ≤ a.changeScore) := by
  have h := @List.sorted_mergeSort ChangePoint
    (fun a b : ChangePoint => decide (b.changeScore ≤ a.changeScore))
    (fun a b c hab hbc => by
      simp only [decide_eq_true_eq] at *
      exact le_trans hbc hab)
    (fun a b => by
      simp only [Bool.or_eq_true, decide_eq_true_eq]
      exact le_total b.changeScore a.changeScore)
    l
  refine h.imp ?_
  intro a b hab
  simpa using hab

/-! Facts about `consolidateChanges`. -/

lemma consolidateChanges_of_le {l : List ChangePoint} {N : ℕ}
    (h : (mergeChanges l).length ≤ N) : consolidateChanges l N = mergeChanges l := by
  rw [consolidateChanges, if_pos h]

lemma consolidateChanges_of_gt {l : List ChangePoint} {N : ℕ}
    (h : N < (mergeChanges l).length) :
    consolidateChanges l N
      = sortByTimestamp ((sortByScoreDesc (mergeChanges l)).take N) := by
  rw [consolidateChanges, if_neg (not_le.mpr h)]

lemma consolidateChanges_length_le (l : List ChangePoint) (N : ℕ) :
    (consolidateChanges l N).length ≤ N := by
  by_cases h : (mergeChanges l).length ≤ N
  · rw [consolidateChanges_of_le h]
    exact h
  · rw [consolidateChanges_of_gt (not_le.mp h)]
    rw [(sortByTimestamp_perm _).length_eq, List.length_take]
    exact min_le_left _ _

lemma consolidateChanges_subset (l : List ChangePoint) (N : ℕ) :
    consolidateChanges l N ⊆ mergeChanges l := by
  by_cases h : (mergeChanges l).length ≤ N
  · rw [consolidateChanges_of_le h]
    exact fun x hx => hx
  · rw [consolidateChanges_of_gt (not_le.mp h)]
    intro x hx
    have hx1 : x ∈ (sortByScoreDesc (mergeChanges l)).take N :=
      (sortByTimestamp_perm _).mem_iff.mp hx
    have hx2 : x ∈ sortByScoreDesc (mergeChanges l) :=
      (List.take_sublist _ _).subset hx1
    exact (sortByScoreDesc_perm _).mem_iff.mp hx2

lemma consolidateChanges_pairwise_gap {l : List ChangePoint} (N : ℕ)
    (h : l.Pairwise (fun a b => a.timestamp ≤ b.timestamp)) :
    (consolidateChanges l N).Pairwise gapOK := by
  have hm : (mergeChanges l).Pairwise gapOK := mergeChanges_pairwise_gap h
  by_cases hle : (mergeChanges l).length ≤ N
  · rw [consolidateChanges_of_le hle]
    exact hm
  · rw [consolidateChanges_of_gt (not_le.mp hle)]
    set out := sortByTimestamp ((sortByScoreDesc (mergeChanges l)).take N) with hout
    have hmnodup : (mergeChanges l).Nodup :=
      pairwise_ts_lt_nodup (pairwise_gap_ts_lt hm)
    have houtsub : out ⊆ mergeChanges l := by
      rw [hout]
      intro x hx
      have hx1 := (sortByTimestamp_perm _).mem_iff.mp hx
      exact (sortByScoreDesc_perm _).mem_iff.mp ((List.take_sublist _ _).subset hx1)
    have houtnodup : out.Nodup := by
      have h1 : (sortByScoreDesc (mergeChanges l)).Nodup :=
        ((sortByScoreDesc_perm _).symm).nodup hmnodup
      have h2 : ((sortByScoreDesc (mergeChanges l)).take N).Nodup :=
        (List.take_sublist _ _).nodup h1
      exact ((sortByTimestamp_perm _).symm).nodup h2
    have houtsorted : out.Pairwise (fun a b => a.timestamp ≤ b.timestamp) :=
      sortByTimestamp_sorted _
    have hS : ∀ a ∈ mergeChanges l, ∀ b ∈ mergeChanges l, a ≠ b →
        gapOK a b ∨ gapOK b a := by
      have hsymm : Symmetric fun a b => gapOK a b ∨ gapOK b a := by
        intro a b hab
        exact hab.symm
      have hm' : (mergeChanges l).Pairwise fun a b => gapOK a b ∨ gapOK b a :=
        hm.imp (fun hab => Or.inl hab)
      intro a ha b hb hne
      exact hm'.forall hsymm ha hb hne
    have hne : out.Pairwise (fun a b => a ≠ b) := houtnodup
    have hcomb : out.Pairwise fun a b => a.timestamp ≤ b.timestamp ∧ a ≠ b :=
      houtsorted.and hne
    refine hcomb.imp_of_mem ?_
    intro a b ha hb hab
    rcases hS a (houtsub ha) b (houtsub hb) hab.2 with hg | hg
    · exact hg
    · exfalso
      have h1 := hab.1
      unfold gapOK MIN_FRAME_INTERVAL at hg
      linarith

/-- C9: on a time-ordered input, consecutive consolidator outputs are at least
`MIN_FRAME_INTERVAL` apart, and every output point is one of the input points,
carried over unchanged. -/
theorem consolidator_gap_provenance (changes : List ChangePoint) (N : ℕ)
    (hsort : (changes.map (fun f => f.timestamp)).Sorted (· ≤ ·)) :
    (consolidateChanges changes N).Chain'
        (fun a b => a.timestamp + MIN_FRAME_INTERVAL ≤ b.timestamp) ∧
    ∀ f ∈ consolidateChanges changes N, f ∈ changes := by
  have hpw : changes.Pairwise (fun a b => a.timestamp ≤ b.timestamp) :=
    List.pairwise_map.mp hsort
  constructor
  · exact (consolidateChanges_pairwise_gap N hpw).chain'
  · intro f hf
    exact (mergeChanges_sublist changes).subset (consolidateChanges_subset changes N hf)

/-- C9 witness: two nearby points and one distant point; the output respects
the minimum gap and is drawn from the input. -/
theorem consolidator_gap_provenance_witness :
    (consolidateChanges [⟨1, 5⟩, ⟨1, 7⟩, ⟨3, 2⟩] 5).Chain'
        (fun a b => a.timestamp + MIN_FRAME_INTERVAL ≤ b.timestamp) ∧
    ∀ f ∈ consolidateChanges [⟨1, 5⟩, ⟨1, 7⟩, ⟨3, 2⟩] 5,
      f ∈ ([⟨1, 5⟩, ⟨1, 7⟩, ⟨3, 2⟩] : List ChangePoint) :=
  consolidator_gap_provenance [⟨1, 5⟩, ⟨1, 7⟩, ⟨3, 2⟩] 5
    (by norm_num [List.Sorted, List.pairwise_cons])

lemma extractFrames_auto (frameAt : ℚ → List ℕ) (d : ℚ) (N : ℕ) (s : ℚ) :
    extractFrames frameAt d ⟨ExtractMode.auto, N, s⟩
      = (if (consolidateChanges (detectSceneChanges frameAt d s) N).length
            < MIN_FRAMES then
          (sortByTimestamp
            ((consolidateChanges (detectSceneChanges frameAt d s) N)
              ++ (generateEqualIntervals d N).filter
                  (fun e => decide (roundTs e ∉
                    (consolidateChanges (detectSceneChanges frameAt d s) N).map
                      roundTs)))).take N
        else consolidateChanges (detectSceneChanges frameAt d s) N) := rfl

/-- C2: the output of `extractFrames` never exceeds `maxFrames` in either
mode, and when the merged set exceeds `maxFrames` the consolidator keeps
exactly `maxFrames` points, every kept point scoring at least as high as every
point it dropped. -/
theorem extract_cap_respected :
    (∀ (frameAt : ℚ → List ℕ) (d : ℚ) (opts : ExtractOptions),
      1 ≤ opts.maxFrames →
      (extractFrames frameAt d opts).length ≤ opts.maxFrames) ∧
    (∀ (changes : List ChangePoint) (N : ℕ), N < (mergeChanges changes).length →
      (consolidateChanges changes N).length = N ∧
      ∀ a ∈ consolidateChanges changes N, ∀ b ∈ mergeChanges changes,
        b ∉ consolidateChanges changes N → b.changeScore ≤ a.changeScore) := by
  constructor
  · rintro frameAt d ⟨mode, N, s⟩ hN
    cases mode with
    | auto =>
      rw [extractFrames_auto]
      split_ifs with h
      · rw [List.length_take]
        exact min_le_left _ _
      · exact consolidateChanges_length_le _ _
    | manual =>
      rw [show extractFrames frameAt d ⟨ExtractMode.manual, N, s⟩
          = generateEqualIntervals d N from rfl, generateEqualIntervals_length]
  · intro changes N hgt
    rw [consolidateChanges_of_gt hgt]
    constructor
    · rw [(sortByTimestamp_perm _).length_eq, List.length_take,
        (sortByScoreDesc_perm _).length_eq]
      omega
    · intro a ha b hb hbnot
      have hamem : a ∈ (sortByScoreDesc (mergeChanges changes)).take N :=
        (sortByTimestamp_perm _).mem_iff.mp ha
      have hbmem : b ∈ sortByScoreDesc (mergeChanges changes) :=
        (sortByScoreDesc_perm _).mem_iff.mpr hb
      have hbnottake : b ∉ (sortByScoreDesc (mergeChanges changes)).take N := by
        intro hcontra
        exact hbnot ((sortByTimestamp_perm _).mem_iff.mpr hcontra)
      have hsplit : (sortByScoreDesc (mergeChanges changes)).take N
          ++ (sortByScoreDesc (mergeChanges changes)).drop N
          = sortByScoreDesc (mergeChanges changes) := List.take_append_drop N _
      have hbmem2 : b ∈ (sortByScoreDesc (mergeChanges changes)).take N
          ++ (sortByScoreDesc (mergeChanges changes)).drop N := by
        rw [hsplit]
        exact hbmem
      have hbdrop : b ∈ (sortByScoreDesc (mergeChanges changes)).drop N := by
        rcases List.mem_append.mp hbmem2 with h | h
        · exact absurd h hbnottake
        · exact h
      have hpw := sortByScoreDesc_sorted (mergeChanges changes)
      rw [← List.take_append_drop N (sortByScoreDesc (mergeChanges changes))] at hpw
      exact (List.pairwise_append.mp hpw).2.2 a hamem b hbdrop

/-- C2 witness: manual mode emits at most one frame when `maxFrames = 1`, and a
three-point merged set capped at two keeps exactly two points. -/
theorem extract_cap_respected_witness :
    (extractFrames (fun _ => []) 1 ⟨ExtractMode.manual, 1, 1⟩).length ≤ 1 ∧
    (consolidateChanges [⟨0, 1⟩, ⟨2, 3⟩, ⟨4, 2⟩] 2).length = 2 := by
  constructor
  · exact extract_cap_respected.1 (fun _ => []) 1 ⟨ExtractMode.manual, 1, 1⟩
      (le_refl 1)
  · refine (extract_cap_respected.2 [⟨0, 1⟩, ⟨2, 3⟩, ⟨4, 2⟩] 2 ?_).1
    norm_num [mergeChanges, mergeAux, MIN_FRAME_INTERVAL]

/-! ### Scan-instant ordering and bounds (towards C1) -/

lemma totalScans_cast_le {d : ℚ} (h : 1 ≤ totalScans d) :
    ((totalScans d : ℕ) : ℚ) ≤ 2 * d := by
  unfold totalScans at h ⊢
  have hnn : 0 ≤ ⌊d / SCAN_INTERVAL⌋ := by
    by_contra hneg
    push_neg at hneg
    have h0 : (⌊d / SCAN_INTERVAL⌋).toNat = 0 := Int.toNat_eq_zero.mpr (le_of_lt hneg)
    omega
  have hcast : (((⌊d / SCAN_INTERVAL⌋).toNat : ℕ) : ℚ) = ((⌊d / SCAN_INTERVAL⌋ : ℤ) : ℚ) := by
    have h1 := Int.toNat_of_nonneg hnn
    exact_mod_cast h1
  rw [hcast]
  have hxval : d / SCAN_INTERVAL = 2 * d := by
    unfold SCAN_INTERVAL
    ring
  calc ((⌊d / SCAN_INTERVAL⌋ : ℤ) : ℚ) ≤ d / SCAN_INTERVAL := Int.floor_le _
    _ = 2 * d := hxval

lemma half_le_of_totalScans {d : ℚ} (h : 1 ≤ totalScans d) : 1 / 2 ≤ d := by
  unfold totalScans at h
  have h1 : (1 : ℤ) ≤ ⌊d / SCAN_INTERVAL⌋ := by
    by_contra hneg
    push_neg at hneg
    have h0 : (⌊d / SCAN_INTERVAL⌋).toNat = 0 := Int.toNat_eq_zero.mpr (by omega)
    omega
  have h2 : (1 : ℚ) ≤ d / SCAN_INTERVAL := by
    calc (1 : ℚ) = ((1 : ℤ) : ℚ) := by norm_num
      _ ≤ ((⌊d / SCAN_INTERVAL⌋ : ℤ) : ℚ) := by exact_mod_cast h1
      _ ≤ d / SCAN_INTERVAL := Int.floor_le _
  have hxval : d / SCAN_INTERVAL = 2 * d := by
    unfold SCAN_INTERVAL
    ring
  have h3 : (1 : ℚ) ≤ 2 * d := hxval ▸ h2
  linarith

lemma scanTime_interior {d : ℚ} {i : ℕ} (hi : i + 1 ≤ totalScans d) :
    (i : ℚ) * SCAN_INTERVAL < d - 1 / 100 := by
  have h1 : 1 ≤ totalScans d := by omega
  have hle := totalScans_cast_le h1
  have hi' : (i : ℚ) + 1 ≤ ((totalScans d : ℕ) : ℚ) := by exact_mod_cast hi
  unfold SCAN_INTERVAL
  linarith

lemma scanTime_strict {d : ℚ} {i j : ℕ} (hij : i < j) (hj : j ≤ totalScans d) :
    scanTime d i < scanTime d j := by
  have hiInt : (i : ℚ) * SCAN_INTERVAL < d - 1 / 100 :=
    scanTime_interior (by omega)
  have hEqi : scanTime d i = (i : ℚ) * SCAN_INTERVAL :=
    min_eq_left (le_of_lt hiInt)
  rw [hEqi, scanTime]
  apply lt_min
  · have hijq : (i : ℚ) < (j : ℚ) := by exact_mod_cast hij
    have hS : (0 : ℚ) < SCAN_INTERVAL := by norm_num [SCAN_INTERVAL]
    exact mul_lt_mul_of_pos_right hijq hS
  · exact hiInt

lemma scanTimes_eq_cons (d : ℚ) :
    scanTimes d = scanTime d 0 ::
      (List.range (totalScans d)).map (fun i => scanTime d (i + 1)) := by
  unfold scanTimes
  rw [List.range_succ_eq_map, List.map_cons, List.map_map]
  rfl

lemma scanTimes_tail (d : ℚ) :
    (scanTimes d).tail = (List.range (totalScans d)).map (fun i => scanTime d (i + 1)) := by
  rw [scanTimes_eq_cons]
  rfl

lemma scanTimes_tail_sorted (d : ℚ) : ((scanTimes d).tail).Sorted (· < ·) := by
  rw [scanTimes_tail]
  refine List.pairwise_map.mpr ?_
  have h0 := List.pairwise_lt_range (totalScans d)
  have h1 := List.Pairwise.and_mem.mp h0
  refine h1.imp ?_
  rintro i j ⟨hi, hj, hij⟩
  rw [List.mem_range] at hi hj
  exact scanTime_strict (by omega) (by omega)

lemma scanTimes_tail_mem_bounds {d : ℚ} :
    ∀ t ∈ (scanTimes d).tail, 0 < t ∧ t < d := by
  rw [scanTimes_tail]
  intro t ht
  obtain ⟨i, hi, rfl⟩ := List.mem_map.mp ht
  rw [List.mem_range] at hi
  have h1 : 1 ≤ totalScans d := by omega
  have hd : 1 / 2 ≤ d := half_le_of_totalScans h1
  constructor
  · rw [scanTime]
    apply lt_min
    · have : (1 : ℚ) ≤ ((i : ℕ) : ℚ) + 1 := by
        have : (0 : ℚ) ≤ ((i : ℕ) : ℚ) := by positivity
        linarith
      have hS : (0 : ℚ) < SCAN_INTERVAL := by norm_num [SCAN_INTERVAL]
      calc (0 : ℚ) < 1 * SCAN_INTERVAL := by norm_num [SCAN_INTERVAL]
        _ ≤ (((i : ℕ) : ℚ) + 1) * SCAN_INTERVAL :=
            mul_le_mul_of_nonneg_right this (le_of_lt hS)
        _ = (((i + 1 : ℕ) : ℕ) : ℚ) * SCAN_INTERVAL := by push_cast; ring
    · linarith
  · calc scanTime d (i + 1) ≤ d - 1 / 100 := min_le_right _ _
      _ < d := by linarith

lemma detect_ts_sorted_strict (frameAt : ℚ → List ℕ) (d s : ℚ) :
    ((detectSceneChanges frameAt d s).map (fun f => f.timestamp)).Sorted (· < ·) :=
  List.Pairwise.sublist (detect_ts_sublist frameAt d s) (scanTimes_tail_sorted d)

lemma detect_pairwise_lt (frameAt : ℚ → List ℕ) (d s : ℚ) :
    (detectSceneChanges frameAt d s).Pairwise
      (fun a b => a.timestamp < b.timestamp) :=
  List.pairwise_map.mp (detect_ts_sorted_strict frameAt d s)

lemma detect_mem_bounds {frameAt : ℚ → List ℕ} {d s : ℚ} :
    ∀ f ∈ detectSceneChanges frameAt d s, 0 < f.timestamp ∧ f.timestamp < d := by
  intro f hf
  have h1 : f.timestamp ∈ (detectSceneChanges frameAt d s).map (fun f => f.timestamp) :=
    List.mem_map_of_mem _ hf
  exact scanTimes_tail_mem_bounds _ ((detect_ts_sublist frameAt d s).subset h1)

lemma map_ts_nodup_of_pairwise_lt {l : List ChangePoint}
    (h : l.Pairwise (fun a b => a.timestamp < b.timestamp)) :
    (l.map (fun f => f.timestamp)).Nodup :=
  List.pairwise_map.mpr (h.imp (fun hab => ne_of_lt hab))

lemma pairwise_ts_lt_of_le_nodup {l : List ChangePoint}
    (hle : l.Pairwise (fun a b => a.timestamp ≤ b.timestamp))
    (hnd : (l.map (fun f => f.timestamp)).Nodup) :
    l.Pairwise (fun a b => a.timestamp < b.timestamp) := by
  have hne : l.Pairwise (fun a b => a.timestamp ≠ b.timestamp) :=
    List.pairwise_map.mp hnd
  exact (hle.and hne).imp (fun h => lt_of_le_of_ne h.1 h.2)

/-- C1: on any successful run (either mode, positive duration, `maxFrames ≥ 1`)
the extracted timestamps are strictly increasing and all lie in `[0, duration)`. -/
theorem extract_monotone_bounds (frameAt : ℚ → List ℕ) (d : ℚ)
    (opts : ExtractOptions) (hd : 0 < d) (hN : 1 ≤ opts.maxFrames) :
    ((extractFrames frameAt d opts).map (fun f => f.timestamp)).Sorted (· < ·) ∧
    ∀ f ∈ extractFrames frameAt d opts, 0 ≤ f.timestamp ∧ f.timestamp < d := by
  rcases opts with ⟨mode, N, s⟩
  cases mode with
  | manual =>
    have hmode : extractFrames frameAt d ⟨ExtractMode.manual, N, s⟩
        = generateEqualIntervals d N := rfl
    rw [hmode]
    refine ⟨generateEqualIntervals_sorted hd N, ?_⟩
    intro f hf
    exact ⟨le_of_lt (generateEqualIntervals_mem_bounds hd hf).1,
      (generateEqualIntervals_mem_bounds hd hf).2⟩
  | auto =>
    rw [extractFrames_auto]
    have hraw_le : (detectSceneChanges frameAt d s).Pairwise
        (fun a b => a.timestamp ≤ b.timestamp) :=
      (detect_pairwise_lt frameAt d s).imp (fun h => le_of_lt h)
    have hcons_lt := pairwise_gap_ts_lt
      (consolidateChanges_pairwise_gap N hraw_le)
    have hcons_bounds : ∀ f ∈ consolidateChanges (detectSceneChanges frameAt d s) N,
        0 < f.timestamp ∧ f.timestamp < d := by
      intro f hf
      exact detect_mem_bounds f
        ((mergeChanges_sublist _).subset (consolidateChanges_subset _ _ hf))
    by_cases hlt : (consolidateChanges (detectSceneChanges frameAt d s) N).length
        < MIN_FRAMES
    · rw [if_pos hlt]
      set cons := consolidateChanges (detectSceneChanges frameAt d s) N with hconsdef
      set added := (generateEqualIntervals d N).filter
        (fun e => decide (roundTs e ∉ cons.map roundTs)) with haddeddef
      have hadded_sub : added.Sublist (generateEqualIntervals d N) := by
        rw [haddeddef]
        exact List.filter_sublist _
      have heq_lt : (generateEqualIntervals d N).Pairwise
          (fun a b => a.timestamp < b.timestamp) :=
        List.pairwise_map.mp (generateEqualIntervals_sorted hd N)
      have hnodup : ((cons ++ added).map (fun f => f.timestamp)).Nodup := by
        rw [List.map_append, List.nodup_append]
        refine ⟨map_ts_nodup_of_pairwise_lt hcons_lt, ?_, ?_⟩
        · exact (hadded_sub.map _).nodup (map_ts_nodup_of_pairwise_lt heq_lt)
        · intro t ht1 ht2
          obtain ⟨c, hc, hct⟩ := List.mem_map.mp ht1
          obtain ⟨e, he, het⟩ := List.mem_map.mp ht2
          have hf := List.mem_filter.mp (haddeddef ▸ he)
          have hpred : roundTs e ∉ cons.map roundTs := of_decide_eq_true hf.2
          apply hpred
          have hre : roundTs e = roundTs c := by
            unfold roundTs jsRound
            rw [het, hct]
          rw [hre]
          exact List.mem_map_of_mem roundTs hc
      have hsorted_out := sortByTimestamp_sorted (cons ++ added)
      have hperm := sortByTimestamp_perm (cons ++ added)
      have hnodup_out :
          ((sortByTimestamp (cons ++ added)).map (fun f => f.timestamp)).Nodup :=
        ((hperm.map _).symm).nodup hnodup
      have htake_le : ((sortByTimestamp (cons ++ added)).take N).Pairwise
          (fun a b => a.timestamp ≤ b.timestamp) :=
        List.Pairwise.sublist (List.take_sublist _ _) hsorted_out
      have htake_nodup :
          (((sortByTimestamp (cons ++ added)).take N).map
            (fun f => f.timestamp)).Nodup :=
        ((List.take_sublist _ _).map _).nodup hnodup_out
      refine ⟨List.pairwise_map.mpr
        (pairwise_ts_lt_of_le_nodup htake_le htake_nodup), ?_⟩
      intro f hf
      have hf1 : f ∈ sortByTimestamp (cons ++ added) :=
        (List.take_sublist _ _).subset hf
      have hf2 : f ∈ cons ++ added := hperm.mem_iff.mp hf1
      rcases List.mem_append.mp hf2 with h | h
      · exact ⟨le_of_lt (hcons_bounds f h).1, (hcons_bounds f h).2⟩
      · have hfe : f ∈ generateEqualIntervals d N := hadded_sub.subset h
        exact ⟨le_of_lt (generateEqualIntervals_mem_bounds hd hfe).1,
          (generateEqualIntervals_mem_bounds hd hfe).2⟩
    · rw [if_neg hlt]
      refine ⟨List.pairwise_map.mpr hcons_lt, ?_⟩
      intro f hf
      exact ⟨le_of_lt (hcons_bounds f hf).1, (hcons_bounds f hf).2⟩

/-- C1 witness: a static one-frame video in auto mode with backfill, and the
bounds at duration 10, five frames. -/
theorem extract_monotone_bounds_witness :
    ((extractFrames (fun _ => [0, 0, 0, 255]) 10
        ⟨ExtractMode.auto, 5, 1 / 10⟩).map (fun f => f.timestamp)).Sorted (· < ·) ∧
    ∀ f ∈ extractFrames (fun _ => [0, 0, 0, 255]) 10 ⟨ExtractMode.auto, 5, 1 / 10⟩,
      0 ≤ f.timestamp ∧ f.timestamp < 10 :=
  extract_monotone_bounds (fun _ => [0, 0, 0, 255]) 10
    ⟨ExtractMode.auto, 5, 1 / 10⟩ (by norm_num) (by norm_num)

/-! ### Claim C3: the automatic-mode floor -/

lemma jsRound_lt_of_gap {x y : ℚ} (h : x + 1 ≤ y) : jsRound x < jsRound y := by
  unfold jsRound
  have h1 : ⌊x + 1 / 2⌋ + 1 = ⌊x + 1 / 2 + 1⌋ := (Int.floor_add_one _).symm
  have h2 : x + 1 / 2 + 1 ≤ y + 1 / 2 := by linarith
  have h3 : ⌊x + 1 / 2 + 1⌋ ≤ ⌊y + 1 / 2⌋ := Int.floor_le_floor h2
  linarith [h1, h3]

lemma eq_interval_round_lt {d : ℚ} (hd : 2 ≤ d) {N i j : ℕ} (hij : i < j)
    (h20 : N + 1 ≤ 20 * (j - i)) :
    jsRound ((((i : ℚ) + 1) * (d / ((N : ℚ) + 1))) * 10)
      < jsRound ((((j : ℚ) + 1) * (d / ((N : ℚ) + 1))) * 10) := by
  apply jsRound_lt_of_gap
  have hden : (0 : ℚ) < (N : ℚ) + 1 := by positivity
  have hji : (1 : ℚ) ≤ (j : ℚ) - (i : ℚ) := by
    have : (i : ℚ) + 1 ≤ (j : ℚ) := by exact_mod_cast hij
    linarith
  have h20q : (N : ℚ) + 1 ≤ 20 * ((j : ℚ) - (i : ℚ)) := by
    have h' : ((N + 1 : ℕ) : ℚ) ≤ ((20 * (j - i) : ℕ) : ℚ) := by exact_mod_cast h20
    push_cast [Nat.cast_sub (le_of_lt hij)] at h'
    linarith
  have key : ((N : ℚ) + 1) ≤ 10 * ((j : ℚ) - (i : ℚ)) * d := by nlinarith
  have hquot : (1 : ℚ) ≤ (10 * ((j : ℚ) - (i : ℚ)) * d) / ((N : ℚ) + 1) := by
    rw [le_div_iff hden]
    linarith
  have hsplit : (((j : ℚ) + 1) * (d / ((N : ℚ) + 1))) * 10
      - (((i : ℚ) + 1) * (d / ((N : ℚ) + 1))) * 10
      = (10 * ((j : ℚ) - (i : ℚ)) * d) / ((N : ℚ) + 1) := by
    field_simp
    ring
  linarith [hsplit, hquot]

lemma filter_keep_count (eqf : List ChangePoint) (existing : List ℤ)
    (W : Finset ChangePoint)
    (hWsub : ∀ e ∈ W, e ∈ eqf)
    (hWinj : ∀ a ∈ W, ∀ b ∈ W, roundTs a = roundTs b → a = b) :
    W.card ≤ existing.length
      + (eqf.filter (fun e => decide (roundTs e ∉ existing))).length := by
  classical
  have hcard : (W.filter (fun e => roundTs e ∈ existing)).card
      + (W.filter (fun e => ¬ roundTs e ∈ existing)).card = W.card :=
    Finset.filter_card_add_filter_neg_card_eq_card _
  set We := W.filter (fun e => roundTs e ∈ existing) with hWe_def
  set Wi := W.filter (fun e => roundTs e ∉ existing) with hWi_def
  have hWe : We.card ≤ existing.length := by
    have hinj : Set.InjOn roundTs We := by
      intro a ha b hb hr
      exact hWinj a (Finset.mem_filter.mp ha).1 b (Finset.mem_filter.mp hb).1 hr
    have himg : We.image roundTs ⊆ existing.toFinset := by
      intro v hv
      obtain ⟨e, he, rfl⟩ := Finset.mem_image.mp hv
      exact List.mem_toFinset.mpr (Finset.mem_filter.mp he).2
    calc We.card = (We.image roundTs).card := (Finset.card_image_of_injOn hinj).symm
      _ ≤ existing.toFinset.card := Finset.card_le_card himg
      _ ≤ existing.length := List.toFinset_card_le existing
  have hWi : Wi.card
      ≤ (eqf.filter (fun e => decide (roundTs e ∉ existing))).length := by
    have hsub : Wi ⊆ (eqf.filter (fun e => decide (roundTs e ∉ existing))).toFinset := by
      intro e he
      rcases Finset.mem_filter.mp he with ⟨heW, hnot⟩
      refine List.mem_toFinset.mpr (List.mem_filter.mpr ⟨hWsub e heW, ?_⟩)
      exact decide_eq_true hnot
    calc Wi.card ≤ _ := Finset.card_le_card hsub
      _ ≤ _ := List.toFinset_card_le _
  omega

/-- C3: for an automatic-mode run on a video of duration at least
`(MIN_FRAMES + 1) * SCAN_INTERVAL` (= 2 s) with `maxFrames = N ≥ 1`, the
output holds at least `min MIN_FRAMES N` frames — either detection already
produced `MIN_FRAMES` consolidated points, or the equal-interval backfill
(deduplicated by tenth-of-second rounding) brings the merged set up to the
floor before the final `maxFrames` truncation. -/
theorem extract_auto_floor (frameAt : ℚ → List ℕ) (d : ℚ) (N : ℕ) (s : ℚ)
    (hd : ((MIN_FRAMES : ℚ) + 1) * SCAN_INTERVAL ≤ d) (hN : 1 ≤ N) :
    min MIN_FRAMES N ≤ (extractFrames frameAt d ⟨ExtractMode.auto, N, s⟩).length := by
  have hd2 : (2 : ℚ) ≤ d := by
    have h : ((MIN_FRAMES : ℚ) + 1) * SCAN_INTERVAL = 2 := by
      norm_num [MIN_FRAMES, SCAN_INTERVAL]
    linarith [h ▸ hd]
  rw [extractFrames_auto]
  by_cases hlt : (consolidateChanges (detectSceneChanges frameAt d s) N).length
      < MIN_FRAMES
  · rw [if_pos hlt]
    set cons := consolidateChanges (detectSceneChanges frameAt d s) N with hconsdef
    set added := (generateEqualIntervals d N).filter
      (fun e => decide (roundTs e ∉ cons.map roundTs)) with haddeddef
    have hlen : ((sortByTimestamp (cons ++ added)).take N).length
        = min N (cons.length + added.length) := by
      rw [List.length_take, (sortByTimestamp_perm _).length_eq, List.length_append]
    rw [hlen]
    set m := (N + 1) / 2 with hm
    set F : ℕ → ChangePoint :=
      fun i => ⟨((i : ℚ) + 1) * (d / ((N : ℚ) + 1)), 0⟩ with hF
    have hround : ∀ i j : ℕ, i < j → N + 1 ≤ 20 * (j - i) →
        roundTs (F i) < roundTs (F j) := by
      intro i j hij h20
      rw [hF]
      unfold roundTs
      exact eq_interval_round_lt hd2 hij h20
    have hFne : ∀ i j : ℕ, i < j → N + 1 ≤ 20 * (j - i) → F i ≠ F j := by
      intro i j hij h20 hEq
      exact absurd (congrArg roundTs hEq) (ne_of_lt (hround i j hij h20))
    set W : Finset ChangePoint := {F 0, F (m - 1), F (N - 1)} with hW
    have hWsub : ∀ e ∈ W, e ∈ generateEqualIntervals d N := by
      intro e he
      rw [hW] at he
      simp only [Finset.mem_insert, Finset.mem_singleton] at he
      have hmem : ∀ i : ℕ, i < N → F i ∈ generateEqualIntervals d N := by
        intro i hi
        rw [generateEqualIntervals, hF]
        exact List.mem_map.mpr ⟨i, List.mem_range.mpr hi, rfl⟩
      rcases he with rfl | rfl | rfl
      · exact hmem 0 (by omega)
      · exact hmem (m - 1) (by omega)
      · exact hmem (N - 1) (by omega)
    have hWinj : ∀ a ∈ W, ∀ b ∈ W, roundTs a = roundTs b → a = b := by
      have hpair : ∀ i j : ℕ, i < N → j < N →
          (i = 0 ∨ i = m - 1 ∨ i = N - 1) → (j = 0 ∨ j = m - 1 ∨ j = N - 1) →
          roundTs (F i) = roundTs (F j) → F i = F j := by
        intro i j hiN hjN hi hj hr
        rcases Nat.lt_trichotomy i j with hij | hij | hij
        · by_cases hgap : N + 1 ≤ 20 * (j - i)
          · exact absurd hr (ne_of_lt (hround i j hij hgap))
          · have : i = j := by omega
            omega
        · rw [hij]
        · by_cases hgap : N + 1 ≤ 20 * (i - j)
          · exact absurd hr.symm (ne_of_lt (hround j i hij hgap))
          · have : i = j := by omega
            omega
      intro a ha b hb hr
      rw [hW] at ha hb
      simp only [Finset.mem_insert, Finset.mem_singleton] at ha hb
      rcases ha with rfl | rfl | rfl <;> rcases hb with rfl | rfl | rfl
      · rfl
      · exact hpair 0 (m - 1) (by omega) (by omega) (by omega) (by omega) hr
      · exact hpair 0 (N - 1) (by omega) (by omega) (by omega) (by omega) hr
      · exact hpair (m - 1) 0 (by omega) (by omega) (by omega) (by omega) hr
      · rfl
      · exact hpair (m - 1) (N - 1) (by omega) (by omega) (by omega) (by omega) hr
      · exact hpair (N - 1) 0 (by omega) (by omega) (by omega) (by omega) hr
      · exact hpair (N - 1) (m - 1) (by omega) (by omega) (by omega) (by omega) hr
      · rfl
    have hWcard : min MIN_FRAMES N ≤ W.card := by
      by_cases hN3 : 3 ≤ N
      · have h1 : F 0 ≠ F (m - 1) := hFne 0 (m - 1) (by omega) (by omega)
        have h2 : F (m - 1) ≠ F (N - 1) := hFne (m - 1) (N - 1) (by omega) (by omega)
        have h3 : F 0 ≠ F (N - 1) := hFne 0 (N - 1) (by omega) (by omega)
        have hc : W.card = 3 := by
          rw [hW]
          rw [Finset.card_insert_of_not_mem (by simp [h1, h3]),
            Finset.card_insert_of_not_mem (by simp [h2]), Finset.card_singleton]
        rw [hc]
        have : min MIN_FRAMES N = 3 := by
          rw [MIN_FRAMES]
          omega
        omega
      · have hc1 : 1 ≤ W.card := Finset.card_pos.mpr ⟨F 0, by simp [hW]⟩
        rcases (by omega : N = 1 ∨ N = 2) with rfl | rfl
        · have : min MIN_FRAMES 1 = 1 := by norm_num [MIN_FRAMES]
          omega
        · have h01 : F 0 ≠ F 1 := hFne 0 1 (by omega) (by omega)
          have hWc : W = {F 0, F 1} := by
            rw [hW]
            norm_num
          have hc : W.card = 2 := by
            rw [hWc, Finset.card_insert_of_not_mem (by simp [h01]),
              Finset.card_singleton]
          have : min MIN_FRAMES 2 = 2 := by norm_num [MIN_FRAMES]
          omega
    have hcount := filter_keep_count (generateEqualIntervals d N)
      (cons.map roundTs) W hWsub hWinj
    rw [List.length_map] at hcount
    rw [← haddeddef] at hcount
    have hfloor : min MIN_FRAMES N ≤ cons.length + added.length :=
      le_trans hWcard hcount
    exact le_min (min_le_right _ _) hfloor
  · rw [if_neg hlt]
    have h1 : MIN_FRAMES ≤ (consolidateChanges (detectSceneChanges frameAt d s) N).length :=
      not_lt.mp hlt
    exact le_trans (min_le_left _ _) h1

/-- C3 witness: a static 2-second video with `maxFrames = 5` yields at least
three frames in automatic mode. -/
theorem extract_auto_floor_witness :
    min MIN_FRAMES 5
      ≤ (extractFrames (fun _ => [0, 0, 0, 255]) 2
          ⟨ExtractMode.auto, 5, 1 / 10⟩).length :=
  extract_auto_floor (fun _ => [0, 0, 0, 255]) 2 5 (1 / 10)
    (by norm_num [MIN_FRAMES, SCAN_INTERVAL]) (by norm_num)
